import Mathlib

/-!
# The text-file CRUD utility of `cpp-Basics/fileManip/main.cpp`

A shallow embedding of class `Crud` (constructor, `createFile`, `readFile`,
`updateFile`, `deleteFile`) and of `main`, followed by the properties of the
embedding.

Modelling conventions

* A `std::string` is a `List Char` (`Str`); one `Char` stands for one `char`.
  String sizes stay far below `2 ^ 64`, so `pos + newText.size()` is computed
  in `Nat` and `std::string::npos` is `none`.
* The filesystem and the two console streams are an explicit `World`.  Paths
  are compared by spelling; the empty path is the current directory when it is
  used as the place in which an entry is looked up or made.  A world has no
  links, and it keeps an entry below the current directory under one spelling,
  the normal form `./name/.../name` (`normalPath`), which is also the form of
  the literal `"./output/tempfile.txt"`.  The model is faithful where each
  file is reached through that one spelling: the properties of `updateFile`
  that depend on the store and the temporary file being two files take the
  path of the store in normal form (`distinctFiles`).
* The standard-library calls used by the source (`std::filesystem`,
  `std::ifstream`, `std::ofstream`, `std::remove`, `std::rename`,
  `std::getline`, `std::string::find`, `std::string::replace`) are modelled by
  the definitions of the first sections, with POSIX behaviour and text streams
  that do not translate line endings.  A call fails only for a reason that
  shows in the entries (a missing file, a missing directory, a directory where
  a file is meant); permissions and the like are not modelled.
* The streams, `std::remove` and `std::rename` are meant for regular files: a
  directory at the path makes the call fail in the model, whereas on POSIX
  `std::ifstream` opens a directory and `std::remove` removes an empty one.
  The properties are therefore stated for a path at which there is a regular
  file or nothing.
* The member functions return `void`; what they report is what they append to
  `std::cerr`.
* `updateFile` carries a `fuel` bound on the iterations of the inner `while`
  loop of each line: `none` means that the bound was reached.
* `quota` is the number of characters an output stream accepts before its
  writes start to fail (`none`: the stream never fails).
-/

namespace FileManip

/-- A `std::string`. -/
abbrev Str := List Char

/-! ## `std::string::find` and `std::string::replace` -/

/-- Search of `str` in a suffix of the text; `i` is the index of the first
character of the suffix in the whole text. -/
def findIn (str : Str) : Str → Nat → Option Nat
  | [], i => if str = [] then some i else none
  | c :: cs, i => if str.isPrefixOf (c :: cs) then some i else findIn str cs (i + 1)

/-- The call `text.find(str, pos)`: the lowest index at or after `pos` at which
`str` occurs in `text`, and `none` (`npos`) when there is none. -/
def find (text str : Str) (pos : Nat) : Option Nat :=
  if pos ≤ text.length then findIn str (text.drop pos) pos else none

/-- The call `text.replace(pos, count, str)` for `pos ≤ text.size()`. -/
def replace (text : Str) (pos count : Nat) (str : Str) : Str :=
  text.take pos ++ str ++ text.drop (pos + count)

/-! ## The per-line loop of `updateFile` (lines 57-61) -/

/-- The loop `while (pos != npos) { text.replace(...); pos = text.find(...); }`
started with the given `text` and `pos`. -/
def replaceLoop (oldText newText : Str) : Nat → Str → Option Nat → Option Str
  | _, text, none => some text
  | 0, _, some _ => none
  | fuel + 1, text, some pos =>
      let text1 := replace text pos oldText.length newText
      replaceLoop oldText newText fuel text1 (find text1 oldText (pos + newText.length))

/-- Lines 57-61 for one line: `pos = text.find(oldText)` and then the loop. -/
def updateLine (fuel : Nat) (oldText newText text : Str) : Option Str :=
  replaceLoop oldText newText fuel text (find text oldText 0)

/-- The outer loop body applied to the lines in order. -/
def updateLines (fuel : Nat) (oldText newText : Str) : List Str → Option (List Str)
  | [] => some []
  | text :: rest =>
    match updateLine fuel oldText newText text with
    | none => none
    | some t =>
      match updateLines fuel oldText newText rest with
      | none => none
      | some ts => some (t :: ts)

/-- The replacement as the specification words it: scan the line from the
left; where `oldText` occurs put `newText` and resume right after the
occurrence, elsewhere keep the character and move one position on. -/
def replaceAll (oldText newText : Str) (text : Str) : Str :=
  match text with
  | [] => []
  | c :: cs =>
    if h : oldText ≠ [] ∧ oldText.isPrefixOf (c :: cs) = true then
      have _ : 0 < oldText.length := List.length_pos.mpr h.1
      newText ++ replaceAll oldText newText ((c :: cs).drop oldText.length)
    else c :: replaceAll oldText newText cs
termination_by text.length

/-! ## Streams of lines -/

/-- One call `getline(file, text)` on the unread characters: the line and the
characters left, or `none` when no character could be extracted. -/
def getline : Str → Option (Str × Str)
  | [] => none
  | c :: cs =>
    if c = '\n' then some ([], cs)
    else
      match getline cs with
      | none => some ([c], [])
      | some (line, rest) => some (c :: line, rest)

/-- The lines produced by `while (getline(file, text))` on a file content. -/
def getlines : Str → List Str
  | [] => []
  | c :: cs =>
    if c = '\n' then [] :: getlines cs
    else
      match getlines cs with
      | [] => [[c]]
      | line :: rest => (c :: line) :: rest

/-- The characters sent by `stream << text << '\n'` for each line in turn. -/
def emitLines : List Str → Str
  | [] => []
  | text :: rest => text ++ '\n' :: emitLines rest

/-- The characters that reach the file when `data` is sent to an output stream
with the given quota. -/
def written (quota : Option Nat) (data : Str) : Str :=
  match quota with
  | none => data
  | some k => data.take k

/-- A content in which the last line is terminated: the content itself when it
is empty or ends with a newline, and the content with a newline added
otherwise. -/
def terminated (s : Str) : Str :=
  if s = [] ∨ s.getLast? = some '\n' then s else s ++ ['\n']

/-! ## The filesystem and the console -/

/-- An entry of the filesystem. -/
inductive Node where
  | file (content : Str)
  | dir
deriving DecidableEq

/-- The filesystem (entries by path) with what was sent to `std::cout` and
to `std::cerr`. -/
structure World where
  node : Str → Option Node
  out : Str
  err : Str

/-- The world with the entry at `p` set to `n`. -/
def World.setNode (w : World) (p : Str) (n : Option Node) : World :=
  { w with node := fun q => if q = p then n else w.node q }

/-- The call `std::filesystem::path(p).parent_path()`: the path without its
last element and without the separators before it; the root for an element
of the root; empty for a single relative element. -/
def parentPath (p : Str) : Str :=
  let afterName := p.reverse.dropWhile (fun c => c != '/')
  let trimmed := afterName.dropWhile (fun c => c == '/')
  if trimmed = [] then (if afterName = [] then [] else ['/']) else trimmed.reverse

/-- The path ends with a file name, not with a separator. -/
def hasFilename (p : Str) : Bool :=
  match p.getLast? with
  | none => false
  | some c => c != '/'

/-- The elements of a path: the pieces between the separators. -/
def components : Str → List Str
  | [] => [[]]
  | c :: cs =>
    if c = '/' then [] :: components cs
    else
      match components cs with
      | [] => [[c]]
      | name :: rest => (c :: name) :: rest

/-- The path is written in the normal form `./name/.../name`: the element `.`
first, then at least one name, no name being empty, `.` or `..`.  Two paths
in this form name the same file of a world only if they are spelled alike. -/
def normalPath (p : Str) : Bool :=
  match components p with
  | first :: name :: names =>
    first == ['.'] &&
      (name :: names).all (fun x => x != [] && x != ['.'] && x != ['.', '.'])
  | _ => false

/-- The two paths are in normal form and differ: they name two files. -/
def distinctFiles (p q : Str) : Bool :=
  normalPath p && normalPath q && p != q

/-- Entries can be looked up and made in `d`: it is the current directory
(the empty path) or an existing directory. -/
def hasDir (w : World) (d : Str) : Bool :=
  d == [] || w.node d == some Node.dir

/-- The call `std::filesystem::exists(p)`. -/
def fsExists (w : World) (p : Str) : Bool :=
  p != [] && (w.node p).isSome

/-- A regular file can be made or overwritten at `p`. -/
def canCreate (w : World) (p : Str) : Bool :=
  hasFilename p && hasDir w (parentPath p) && w.node p != some Node.dir

/-- The call `std::filesystem::create_directory(p)`; `none` when it throws
`filesystem_error`. -/
def createDirectory (w : World) (p : Str) : Option World :=
  if p = [] then none
  else if w.node p = some Node.dir then some w
  else if hasDir w (parentPath p) && w.node p == none then
    some (w.setNode p (some Node.dir))
  else none

/-- Opening `std::ifstream file(p)`: the content when `is_open()`.  Faithful
for a path at which there is a regular file or nothing. -/
def openRead (w : World) (p : Str) : Option Str :=
  match w.node p with
  | some (Node.file content) => some content
  | _ => none

/-- Opening `std::ofstream file(p)`: when `is_open()`, the world in which the
file exists and is empty.  The entry spelled `p` is the one emptied: faithful
where the file is reached through this spelling alone. -/
def openWrite (w : World) (p : Str) : Option World :=
  if canCreate w p then some (w.setNode p (some (Node.file []))) else none

/-- The call `std::remove(p)` on a regular file: whether it returned 0, and
the world after it. -/
def removeFile (w : World) (p : Str) : Bool × World :=
  match w.node p with
  | some (Node.file _) => (true, w.setNode p none)
  | _ => (false, w)

/-- The call `std::rename(src, dst)` of a regular file: whether it returned 0,
and the world after it. -/
def renameFile (w : World) (src dst : Str) : Bool × World :=
  match w.node src with
  | some (Node.file content) =>
    if src = dst then (true, w)
    else if canCreate w dst then
      (true, (w.setNode src none).setNode dst (some (Node.file content)))
    else (false, w)
  | _ => (false, w)

/-- The output of `std::cout << dir` for a `std::filesystem::path`: the path
between double quotes, with quotes and backslashes escaped. -/
def quoted (p : Str) : Str :=
  let q := Char.ofNat 34
  let b := Char.ofNat 92
  q :: (p.foldr (fun c acc => if c = q ∨ c = b then b :: c :: acc else c :: acc) [q])

/-! ## Class `Crud` -/

/-- The literal `"./output/tempfile.txt"` of `updateFile`. -/
def tempPath : Str := "./output/tempfile.txt".toList

/-- The class `Crud`: its only member is the path. -/
structure Crud where
  m_path : Str
deriving DecidableEq

/-- The constructor `Crud::Crud` (lines 12-21): the new object and the world after it, or
the world at the point where `create_directory` throws. -/
def Crud.new (path : Str) (w : World) : Except World (Crud × World) :=
  let dir := parentPath path
  if fsExists w dir then Except.ok (⟨path⟩, w)
  else
    let w1 := { w with out := w.out ++ "Creating output directory ".toList ++ quoted dir ++ ['\n'] }
    match createDirectory w1 dir with
    | some w2 => Except.ok (⟨path⟩, w2)
    | none => Except.error w1

/-- The member `createFile` (lines 24-32). -/
def Crud.createFile (self : Crud) (quota : Option Nat) (inputText : Str) (w : World) : World :=
  match openWrite w self.m_path with
  | some w1 => w1.setNode self.m_path (some (Node.file (written quota inputText)))
  | none => { w with err := w.err ++ "Unable to create file\n".toList }

/-- The member `readFile` (lines 35-47). -/
def Crud.readFile (self : Crud) (w : World) : World :=
  match openRead w self.m_path with
  | some content => { w with out := w.out ++ emitLines (getlines content) }
  | none => { w with err := w.err ++ "Unable to read file\n".toList }

/-- The member `updateFile` (lines 50-72).  The input stream is opened first,
the output stream second; the lines are read once the output stream has
emptied its file. -/
def Crud.updateFile (self : Crud) (quota : Option Nat) (fuel : Nat) (oldText newText : Str)
    (w : World) : Option World :=
  match openRead w self.m_path, openWrite w tempPath with
  | some _, some w1 =>
    let content := (openRead w1 self.m_path).getD []
    match updateLines fuel oldText newText (getlines content) with
    | none => none
    | some texts =>
      let w2 := w1.setNode tempPath (some (Node.file (written quota (emitLines texts))))
      let w3 := (removeFile w2 self.m_path).2
      some (renameFile w3 tempPath self.m_path).2
  | _, some w1 => some { w1 with err := w1.err ++ "Unable to update file\n".toList }
  | _, none => some { w with err := w.err ++ "Unable to update file\n".toList }

/-- Lines 51-65 of `updateFile`: the world once both streams are closed, right
before `std::remove` and `std::rename`; `none` when a stream did not open or
the fuel is used up. -/
def Crud.updateFileBeforeInstall (self : Crud) (quota : Option Nat) (fuel : Nat)
    (oldText newText : Str) (w : World) : Option World :=
  match openRead w self.m_path, openWrite w tempPath with
  | some _, some w1 =>
    let content := (openRead w1 self.m_path).getD []
    match updateLines fuel oldText newText (getlines content) with
    | none => none
    | some texts =>
      some (w1.setNode tempPath (some (Node.file (written quota (emitLines texts)))))
  | _, _ => none

/-- The member `deleteFile` (lines 76-82). -/
def Crud.deleteFile (self : Crud) (w : World) : World :=
  match removeFile w self.m_path with
  | (true, w1) => { w1 with out := w1.out ++ "File deleted successfully\n".toList }
  | (false, w1) => { w1 with err := w1.err ++ "Unable to delete file\n".toList }

/-- The function `main` (lines 85-104) with streams that never fail; `none`
when the constructor throws or the fuel is used up. -/
def main (fuel : Nat) (w : World) : Option World :=
  match Crud.new "./output/file.txt".toList w with
  | Except.error _ => none
  | Except.ok (cruddyFile, w0) =>
    let w1 := cruddyFile.createFile none "STOP LOOKING AT ME!".toList w0
    let w2 := cruddyFile.readFile w1
    match cruddyFile.updateFile none fuel "STOP".toList "KEEP".toList w2 with
    | none => none
    | some w3 =>
      let w4 := cruddyFile.readFile w3
      some (cruddyFile.deleteFile w4)

/-- A world with the given entries (the first entry of a path counts) and
silent consoles. -/
def World.ofEntries (entries : List (Str × Node)) : World :=
  { node := fun p => entries.lookup p, out := [], err := [] }

/-- The path of the store of `main`. -/
def mainPath : Str := "./output/file.txt".toList

/-- A filesystem that holds the current directory and nothing else. -/
def bareWorld : World := World.ofEntries [(".".toList, Node.dir)]

/-- A filesystem in which the directory `./output` exists and is empty. -/
def readyWorld : World :=
  World.ofEntries [(".".toList, Node.dir), ("./output".toList, Node.dir)]

/-- A filesystem in which `./output` holds one file, at `p`, with content `c`. -/
def worldWithFile (p c : Str) : World :=
  World.ofEntries [(".".toList, Node.dir), ("./output".toList, Node.dir), (p, Node.file c)]

/-- A filesystem in which `./output` is missing and `./data` holds one file,
at `./data/file.txt`, with content `c`. -/
def worldWithoutOutput (c : Str) : World :=
  World.ofEntries [(".".toList, Node.dir), ("./data".toList, Node.dir),
    ("./data/file.txt".toList, Node.file c)]

/-! ## The replacement loop computes the replacement of the specification -/

theorem replaceAll_nil (o n : Str) : replaceAll o n [] = [] := by
  rw [replaceAll]

theorem replaceAll_match (o n : Str) (c : Char) (cs : Str) (ho : o ≠ [])
    (hp : o.isPrefixOf (c :: cs) = true) :
    replaceAll o n (c :: cs) = n ++ replaceAll o n ((c :: cs).drop o.length) := by
  rw [replaceAll, dif_pos ⟨ho, hp⟩]

theorem replaceAll_skip (o n : Str) (c : Char) (cs : Str)
    (hp : ¬ o.isPrefixOf (c :: cs) = true) :
    replaceAll o n (c :: cs) = c :: replaceAll o n cs := by
  rw [replaceAll, dif_neg (fun h => hp h.2)]

theorem findIn_none_replaceAll (o n : Str) :
    ∀ (suf : Str) (q : Nat), findIn o suf q = none → replaceAll o n suf = suf := by
  intro suf
  induction suf with
  | nil => intro q _; exact replaceAll_nil o n
  | cons c cs ih =>
    intro q h
    unfold findIn at h
    split at h
    · cases h
    · rename_i hp
      rw [replaceAll_skip o n c cs hp, ih (q + 1) h]

theorem findIn_some_split (o n : Str) (ho : o ≠ []) :
    ∀ (suf : Str) (q p : Nat), findIn o suf q = some p →
      ∃ u rest, suf = u ++ o ++ rest ∧ p = q + u.length ∧
        replaceAll o n suf = u ++ n ++ replaceAll o n rest := by
  intro suf
  induction suf with
  | nil =>
    intro q p h
    simp [findIn, ho] at h
  | cons c cs ih =>
    intro q p h
    unfold findIn at h
    split at h
    · rename_i hp
      injection h with h
      have hpre : o <+: c :: cs := List.isPrefixOf_iff_prefix.mp hp
      refine ⟨[], (c :: cs).drop o.length, ?_, ?_, ?_⟩
      · obtain ⟨t, ht⟩ := hpre
        rw [← ht]; simp
      · simp [h]
      · rw [replaceAll_match o n c cs ho hp]; simp
    · rename_i hp
      obtain ⟨u, rest, h1, h2, h3⟩ := ih (q + 1) p h
      refine ⟨c :: u, rest, ?_, ?_, ?_⟩
      · rw [h1]; simp
      · simp [h2]; omega
      · rw [replaceAll_skip o n c cs hp, h3]; simp

theorem replace_at_match (pre u o n rest : Str) :
    replace (pre ++ u ++ o ++ rest) (pre.length + u.length) o.length n
      = pre ++ u ++ n ++ rest := by
  unfold replace
  have h1 : (pre ++ u ++ o ++ rest).take (pre.length + u.length) = pre ++ u := by
    rw [List.append_assoc (pre ++ u), ← List.length_append]
    exact List.take_left' rfl
  have h2 : (pre ++ u ++ o ++ rest).drop (pre.length + u.length + o.length) = rest := by
    rw [← List.length_append, ← List.length_append]
    exact List.drop_left' rfl
  rw [h1, h2]

theorem find_after (pre o rest : Str) :
    find (pre ++ rest) o pre.length = findIn o rest pre.length := by
  unfold find
  rw [if_pos (by simp), List.drop_left' rfl]

theorem replaceLoop_spec (o n : Str) (ho : o ≠ []) :
    ∀ (fuel : Nat) (pre suf : Str), suf.length ≤ fuel →
      replaceLoop o n fuel (pre ++ suf) (findIn o suf pre.length)
        = some (pre ++ replaceAll o n suf) := by
  intro fuel
  induction fuel with
  | zero =>
    intro pre suf hlen
    have : suf = [] := List.length_eq_zero.mp (Nat.le_zero.mp hlen)
    subst this
    simp [findIn, ho, replaceLoop, replaceAll_nil]
  | succ fuel ih =>
    intro pre suf hlen
    cases hf : findIn o suf pre.length with
    | none =>
      rw [findIn_none_replaceAll o n suf _ hf]
      simp [replaceLoop]
    | some p =>
      obtain ⟨u, rest, h1, h2, h3⟩ := findIn_some_split o n ho suf _ p hf
      subst h1; subst h2
      have hopos : 0 < o.length := List.length_pos.mpr ho
      have hrest : rest.length ≤ fuel := by
        simp only [List.length_append] at hlen; omega
      have key := ih (pre ++ u ++ n) rest hrest
      simp only [replaceLoop]
      have e1 : pre ++ (u ++ o ++ rest) = pre ++ u ++ o ++ rest := by simp
      rw [e1, replace_at_match]
      have e2 : pre.length + u.length + n.length = (pre ++ u ++ n).length := by
        simp only [List.length_append]
      rw [e2, find_after, key, h3]
      simp

theorem updateLine_eq_replaceAll (o n text : Str) (ho : o ≠ []) (fuel : Nat)
    (hf : text.length ≤ fuel) :
    updateLine fuel o n text = some (replaceAll o n text) := by
  have := replaceLoop_spec o n ho fuel [] text hf
  simpa [updateLine, find] using this

/-! ## Bounds on the search position -/

theorem findIn_bounds (o : Str) :
    ∀ (suf : Str) (q p : Nat), findIn o suf q = some p →
      q ≤ p ∧ p + o.length ≤ q + suf.length := by
  intro suf
  induction suf with
  | nil =>
    intro q p h
    unfold findIn at h
    split at h
    · rename_i ho
      injection h with h
      subst ho; subst h; simp
    · cases h
  | cons c cs ih =>
    intro q p h
    unfold findIn at h
    split at h
    · rename_i hp
      injection h with h
      have hle := (List.isPrefixOf_iff_prefix.mp hp).length_le
      subst h
      exact ⟨Nat.le_refl _, Nat.add_le_add_left hle _⟩
    · obtain ⟨h1, h2⟩ := ih (q + 1) p h
      simp only [List.length_cons] at *
      omega

theorem find_bounds (text o : Str) (q p : Nat) (h : find text o q = some p) :
    q ≤ p ∧ p + o.length ≤ text.length := by
  unfold find at h
  split at h
  · rename_i hq
    obtain ⟨h1, h2⟩ := findIn_bounds o _ q p h
    rw [List.length_drop] at h2
    omega
  · cases h

theorem replace_length (text n : Str) (pos cnt : Nat) (h : pos + cnt ≤ text.length) :
    (replace text pos cnt n).length + cnt = text.length + n.length := by
  unfold replace
  simp only [List.length_append, List.length_take, List.length_drop]
  omega

theorem replaceLoop_none (o n : Str) (fuel : Nat) (text : Str) :
    replaceLoop o n fuel text none = some text := by
  cases fuel <;> rfl

theorem replaceLoop_returns (o n : Str) (ho : o ≠ []) :
    ∀ (fuel : Nat) (text : Str) (q pos : Nat), find text o q = some pos →
      text.length - pos ≤ fuel → (replaceLoop o n fuel text (some pos)).isSome = true := by
  have hopos : 0 < o.length := List.length_pos.mpr ho
  intro fuel
  induction fuel with
  | zero =>
    intro text q pos h hf
    obtain ⟨_, b1⟩ := find_bounds text o q pos h
    omega
  | succ fuel ih =>
    intro text q pos h hf
    obtain ⟨_, b1⟩ := find_bounds text o q pos h
    simp only [replaceLoop]
    cases h2 : find (replace text pos o.length n) o (pos + n.length) with
    | none => rw [replaceLoop_none]; rfl
    | some pos1 =>
      obtain ⟨b2, _⟩ := find_bounds _ o _ pos1 h2
      have hl := replace_length text n pos o.length b1
      exact ih _ _ pos1 h2 (by omega)

/-! ## Claims about the per-line loop -/

/-- C1: for every line, every non-empty oldText and every newText, the
per-line loop of `updateFile` returns (with any fuel that is at least the
length of the line) the line in which each occurrence of oldText met by the
left-to-right scan is replaced by newText, the scan resuming right after the
inserted text. -/
theorem updateLine_replaces_every_occurrence (text oldText newText : Str)
    (hold : oldText ≠ []) (fuel : Nat) (hfuel : text.length ≤ fuel) :
    updateLine fuel oldText newText text = some (replaceAll oldText newText text) := by
  have h := replaceLoop_spec oldText newText hold fuel [] text hfuel
  unfold updateLine find
  rw [if_pos (Nat.zero_le _), List.drop_zero]
  simpa using h

/-- The witness of C1 in the specification: line "aaa", oldText "a",
newText "bb" gives "bbbbbb". -/
theorem updateLine_replaces_every_occurrence_witness :
    "a".toList ≠ [] ∧ "aaa".toList.length ≤ 3 ∧
      updateLine 3 "a".toList "bb".toList "aaa".toList = some "bbbbbb".toList ∧
      replaceAll "a".toList "bb".toList "aaa".toList = "bbbbbb".toList := by
  have h := updateLine_replaces_every_occurrence "aaa".toList "a".toList "bb".toList
    (by decide) 3 (by decide)
  have e : updateLine 3 "a".toList "bb".toList "aaa".toList = some "bbbbbb".toList := by decide
  refine ⟨by decide, by decide, e, ?_⟩
  rw [e] at h
  exact (Option.some.inj h).symm

/-- C10: for every non-empty oldText and every newText the inner loop ends.
At every iteration that finds a further occurrence, the distance from the
search position to the end of the line is strictly smaller than before it;
started at a position returned by `find`, the loop returns a line as soon as
the fuel is at least that distance; and the loop of a whole line returns with
fuel at least the length of the line. -/
theorem inner_loop_terminates (oldText newText : Str) (hold : oldText ≠ []) :
    (∀ (text : Str) (q pos pos1 : Nat), find text oldText q = some pos →
        find (replace text pos oldText.length newText) oldText (pos + newText.length)
          = some pos1 →
        (replace text pos oldText.length newText).length - pos1 < text.length - pos) ∧
    (∀ (fuel : Nat) (text : Str) (q pos : Nat), find text oldText q = some pos →
        text.length - pos ≤ fuel →
        (replaceLoop oldText newText fuel text (some pos)).isSome = true) ∧
    (∀ (text : Str) (fuel : Nat), text.length ≤ fuel →
        (updateLine fuel oldText newText text).isSome = true) := by
  refine ⟨?_, replaceLoop_returns oldText newText hold, ?_⟩
  · intro text q pos pos1 h1 h2
    have hopos : 0 < oldText.length := List.length_pos.mpr hold
    obtain ⟨_, b1⟩ := find_bounds text oldText q pos h1
    obtain ⟨b2, _⟩ := find_bounds _ oldText _ pos1 h2
    have hl := replace_length text newText pos oldText.length b1
    omega
  · intro text fuel hf
    unfold updateLine
    cases h : find text oldText 0 with
    | none => rw [replaceLoop_none]; rfl
    | some pos =>
      exact replaceLoop_returns oldText newText hold fuel text 0 pos h (by omega)

/-- An instance of C10 in which newText contains oldText, and one in which
newText is empty. -/
theorem inner_loop_terminates_witness :
    "a".toList ≠ [] ∧
      (replace "aaa".toList 0 "a".toList.length "ba".toList).length - 2
        < "aaa".toList.length - 0 ∧
      (replaceLoop "a".toList "ba".toList 3 "aaa".toList (some 0)).isSome = true ∧
      (updateLine 3 "a".toList "ba".toList "aaa".toList).isSome = true ∧
      (updateLine 3 "a".toList [] "aaa".toList).isSome = true :=
  ⟨by decide,
   (inner_loop_terminates "a".toList "ba".toList (by decide)).1 "aaa".toList 0 0 2
     (by decide) (by decide),
   (inner_loop_terminates "a".toList "ba".toList (by decide)).2.1 3 "aaa".toList 0 0
     (by decide) (by decide),
   (inner_loop_terminates "a".toList "ba".toList (by decide)).2.2 "aaa".toList 3 (by decide),
   (inner_loop_terminates "a".toList [] (by decide)).2.2 "aaa".toList 3 (by decide)⟩

/-! ## Lines of a content -/

theorem getlines_eq_nil (s : Str) : getlines s = [] ↔ s = [] := by
  cases s with
  | nil => simp [getlines]
  | cons c cs =>
    simp only [getlines]
    split
    · simp
    · split <;> simp

theorem getlines_of_getline (s line rest : Str) (h : getline s = some (line, rest)) :
    getlines s = line :: getlines rest := by
  induction s generalizing line rest with
  | nil => simp [getline] at h
  | cons c cs ih =>
    simp only [getline] at h
    simp only [getlines]
    split at h
    · rename_i hc
      simp only [Option.some.injEq, Prod.mk.injEq] at h
      obtain ⟨rfl, rfl⟩ := h
      simp [hc]
    · rename_i hc
      rw [if_neg hc]
      cases hg : getline cs with
      | none =>
        rw [hg] at h
        simp only [Option.some.injEq, Prod.mk.injEq] at h
        obtain ⟨rfl, rfl⟩ := h
        have : cs = [] := by
          cases cs with
          | nil => rfl
          | cons d ds =>
            simp only [getline] at hg
            split at hg
            · cases hg
            · split at hg <;> cases hg
        subst this
        simp [getlines]
      | some lr =>
        obtain ⟨l, r⟩ := lr
        rw [hg] at h
        simp only [Option.some.injEq, Prod.mk.injEq] at h
        obtain ⟨rfl, rfl⟩ := h
        rw [ih l r hg]

theorem getline_eq_none (s : Str) : getline s = none ↔ s = [] := by
  cases s with
  | nil => simp [getline]
  | cons c cs =>
    simp only [getline]
    split
    · simp
    · split <;> simp

theorem emitLines_getlines (s : Str) : emitLines (getlines s) = terminated s := by
  induction s with
  | nil => simp [getlines, emitLines, terminated]
  | cons c cs ih =>
    simp only [getlines]
    by_cases hc : c = '\n'
    · rw [if_pos hc]
      simp only [emitLines, List.nil_append, ih]
      subst hc
      cases cs with
      | nil => simp [terminated]
      | cons d ds =>
        simp [terminated, List.getLast?_cons_cons]
        split <;> simp
    · rw [if_neg hc]
      cases hg : getlines cs with
      | nil =>
        have : cs = [] := (getlines_eq_nil cs).mp hg
        subst this
        simp [emitLines, terminated, hc]
      | cons l ls =>
        rw [hg] at ih
        simp only [emitLines] at ih ⊢
        have hne : cs ≠ [] := by
          intro h; subst h; simp [getlines] at hg
        obtain ⟨d, ds, rfl⟩ := List.exists_cons_of_ne_nil hne
        rw [List.cons_append, ih]
        simp [terminated, List.getLast?_cons_cons]
        split <;> simp

theorem getlines_single (s : Str) (hs : s ≠ []) (hnl : '\n' ∉ s) : getlines s = [s] := by
  induction s with
  | nil => exact absurd rfl hs
  | cons c cs ih =>
    have hc : c ≠ '\n' := fun h => hnl (by simp [h])
    have hcs : '\n' ∉ cs := fun h => hnl (by simp [h])
    simp only [getlines, if_neg hc]
    cases cs with
    | nil => simp [getlines]
    | cons d ds =>
      rw [ih (by simp) hcs]

theorem terminated_append_newline (s : Str) : terminated (s ++ ['\n']) = s ++ ['\n'] := by
  simp [terminated]


/-! ## The filesystem primitives -/

@[simp] theorem setNode_node (w : World) (p : Str) (n : Option Node) (q : Str) :
    (w.setNode p n).node q = if q = p then n else w.node q := rfl

@[simp] theorem setNode_out (w : World) (p : Str) (n : Option Node) :
    (w.setNode p n).out = w.out := rfl

@[simp] theorem setNode_err (w : World) (p : Str) (n : Option Node) :
    (w.setNode p n).err = w.err := rfl

theorem openWrite_of_canCreate (w : World) (p : Str) (h : canCreate w p = true) :
    openWrite w p = some (w.setNode p (some (Node.file []))) := by
  simp [openWrite, h]

theorem openRead_of_file (w : World) (p c : Str) (h : w.node p = some (Node.file c)) :
    openRead w p = some c := by
  simp [openRead, h]

theorem parentPath_length_lt (p : Str) (h : hasFilename p = true) :
    (parentPath p).length < p.length := by
  unfold hasFilename at h
  cases hl : p.getLast? with
  | none => rw [hl] at h; cases h
  | some c =>
    rw [hl] at h
    simp only [bne_iff_ne, ne_eq] at h
    have hrev : p.reverse.head? = some c := by rw [List.head?_reverse]; exact hl
    obtain ⟨r, hr⟩ : ∃ r, p.reverse = c :: r := by
      cases hp : p.reverse with
      | nil => rw [hp] at hrev; cases hrev
      | cons d r =>
        rw [hp] at hrev
        simp only [List.head?_cons, Option.some.injEq] at hrev
        exact ⟨r, by rw [hrev]⟩
    have hlen : p.length = r.length + 1 := by
      have := congrArg List.length hr
      simpa using this
    have h1 : (p.reverse.dropWhile (fun c => c != '/')).length ≤ r.length := by
      rw [hr, List.dropWhile_cons_of_pos (by simpa using h)]
      exact (List.dropWhile_sublist _).length_le
    have h2 : ((p.reverse.dropWhile (fun c => c != '/')).dropWhile (fun c => c == '/')).length
        ≤ (p.reverse.dropWhile (fun c => c != '/')).length :=
      (List.dropWhile_sublist _).length_le
    unfold parentPath
    simp only
    split
    · split
      · simp [hlen]
      · rename_i hne
        have : 0 < (p.reverse.dropWhile (fun c => c != '/')).length := List.length_pos.mpr hne
        simp only [List.length_singleton]
        omega
    · simp only [List.length_reverse]
      omega

theorem parentPath_ne_self (p : Str) (h : hasFilename p = true) : parentPath p ≠ p := by
  intro he
  have := parentPath_length_lt p h
  rw [he] at this
  exact Nat.lt_irrefl _ this

/-! ## Creating, reading, deleting -/

theorem createFile_of_canCreate (self : Crud) (quota : Option Nat) (s : Str) (w : World)
    (h : canCreate w self.m_path = true) :
    (self.createFile quota s w).node self.m_path = some (Node.file (written quota s)) ∧
    (∀ q, q ≠ self.m_path → (self.createFile quota s w).node q = w.node q) ∧
    (self.createFile quota s w).out = w.out ∧ (self.createFile quota s w).err = w.err := by
  unfold Crud.createFile
  rw [openWrite_of_canCreate w _ h]
  refine ⟨by simp, ?_, rfl, rfl⟩
  intro q hq
  simp [hq]

theorem readFile_of_file (self : Crud) (w : World) (c : Str)
    (h : w.node self.m_path = some (Node.file c)) :
    self.readFile w = { w with out := w.out ++ terminated c } := by
  unfold Crud.readFile
  rw [openRead_of_file w _ c h]
  simp only [emitLines_getlines]

theorem readFile_of_absent (self : Crud) (w : World) (h : w.node self.m_path = none) :
    self.readFile w = { w with err := w.err ++ "Unable to read file\n".toList } := by
  unfold Crud.readFile
  simp [openRead, h]


theorem deleteFile_of_file (self : Crud) (w : World) (c : Str)
    (h : w.node self.m_path = some (Node.file c)) :
    self.deleteFile w
      = { w.setNode self.m_path none with
          out := w.out ++ "File deleted successfully\n".toList } := by
  unfold Crud.deleteFile removeFile
  rw [h]
  rfl

theorem deleteFile_of_absent (self : Crud) (w : World) (h : w.node self.m_path = none) :
    self.deleteFile w = { w with err := w.err ++ "Unable to delete file\n".toList } := by
  unfold Crud.deleteFile removeFile
  rw [h]

/-- C3, as amended: when the file of the store can be opened for writing,
`createFile(s)` leaves the file with content exactly `s`, and the following
`readFile()` sends to `std::cout` the lines of `s`, each followed by a
newline: `s` itself when `s` is empty or ends with a newline, and `s` with one
newline added otherwise; nothing is sent to `std::cerr`. -/
theorem create_then_read_yields_lines (self : Crud) (w : World) (s : Str)
    (hopen : canCreate w self.m_path = true) :
    (self.createFile none s w).node self.m_path = some (Node.file s) ∧
    (self.readFile (self.createFile none s w)).out
      = w.out ++ (if s = [] ∨ s.getLast? = some '\n' then s else s ++ ['\n']) ∧
    (self.readFile (self.createFile none s w)).err = w.err := by
  obtain ⟨h1, _, h3, h4⟩ := createFile_of_canCreate self none s w hopen
  simp only [written] at h1
  rw [readFile_of_file self _ s h1]
  exact ⟨h1, by simp only [h3, terminated], h4⟩

/-- Three payloads for C3 as amended: the empty one and one that ends with a
newline come back as they are, one without a final newline comes back with a
newline added. -/
theorem create_then_read_yields_lines_witness :
    canCreate readyWorld mainPath = true ∧
    (Crud.readFile ⟨mainPath⟩ (Crud.createFile ⟨mainPath⟩ none [] readyWorld)).out = [] ∧
    (Crud.readFile ⟨mainPath⟩ (Crud.createFile ⟨mainPath⟩ none "a\nb\n".toList readyWorld)).out
      = "a\nb\n".toList ∧
    (Crud.readFile ⟨mainPath⟩ (Crud.createFile ⟨mainPath⟩ none "a\nb".toList readyWorld)).out
      = "a\nb\n".toList :=
  ⟨by decide,
   (create_then_read_yields_lines ⟨mainPath⟩ readyWorld [] (by decide)).2.1,
   (create_then_read_yields_lines ⟨mainPath⟩ readyWorld "a\nb\n".toList (by decide)).2.1,
   (create_then_read_yields_lines ⟨mainPath⟩ readyWorld "a\nb".toList (by decide)).2.1⟩

/-- C3 as stated fails: after `createFile("a")` the read sends "a" and a
newline to `std::cout`, which is not the payload "a". -/
theorem create_then_read_adds_newline :
    (Crud.readFile ⟨mainPath⟩ (Crud.createFile ⟨mainPath⟩ none "a".toList readyWorld)).out
      = "a\n".toList ∧
    (Crud.readFile ⟨mainPath⟩ (Crud.createFile ⟨mainPath⟩ none "a".toList readyWorld)).out
      ≠ "a".toList := by
  decide

/-- C8: when the file of the store exists, `deleteFile()` reports success and
leaves the file absent; the following `readFile()` sends nothing to
`std::cout` and reports "Unable to read file"; a second `deleteFile()`
reports "Unable to delete file". -/
theorem delete_then_read_then_delete (self : Crud) (w : World) (c : Str)
    (hfile : w.node self.m_path = some (Node.file c)) :
    (self.deleteFile w).node self.m_path = none ∧
    (self.deleteFile w).out = w.out ++ "File deleted successfully\n".toList ∧
    (self.deleteFile w).err = w.err ∧
    (self.readFile (self.deleteFile w)).out = (self.deleteFile w).out ∧
    (self.readFile (self.deleteFile w)).err
      = (self.deleteFile w).err ++ "Unable to read file\n".toList ∧
    (self.readFile (self.deleteFile w)).node self.m_path = none ∧
    (self.deleteFile (self.readFile (self.deleteFile w))).out = (self.deleteFile w).out ∧
    (self.deleteFile (self.readFile (self.deleteFile w))).err
      = (self.deleteFile w).err ++ "Unable to read file\n".toList
          ++ "Unable to delete file\n".toList ∧
    (self.deleteFile (self.readFile (self.deleteFile w))).node self.m_path = none := by
  have hd := deleteFile_of_file self w c hfile
  have hn : (self.deleteFile w).node self.m_path = none := by rw [hd]; simp
  have hr := readFile_of_absent self _ hn
  have hn2 : (self.readFile (self.deleteFile w)).node self.m_path = none := by rw [hr]; exact hn
  have hd2 := deleteFile_of_absent self _ hn2
  refine ⟨hn, by rw [hd], by rw [hd]; rfl, by rw [hr], by rw [hr], hn2, ?_, ?_, ?_⟩
  · rw [hd2, hr]
  · rw [hd2, hr]
  · rw [hd2]; exact hn2

/-- C8 on the file that `main` deletes. -/
theorem delete_then_read_then_delete_witness :
    (worldWithFile mainPath "KEEP LOOKING AT ME!\n".toList).node mainPath
      = some (Node.file "KEEP LOOKING AT ME!\n".toList) ∧
    (Crud.deleteFile ⟨mainPath⟩ (worldWithFile mainPath "KEEP LOOKING AT ME!\n".toList)).node
      mainPath = none ∧
    (Crud.readFile ⟨mainPath⟩
      (Crud.deleteFile ⟨mainPath⟩ (worldWithFile mainPath "KEEP LOOKING AT ME!\n".toList))).err
      = "Unable to read file\n".toList :=
  ⟨by decide,
   (delete_then_read_then_delete ⟨mainPath⟩ (worldWithFile mainPath "KEEP LOOKING AT ME!\n".toList)
     "KEEP LOOKING AT ME!\n".toList (by decide)).1,
   (delete_then_read_then_delete ⟨mainPath⟩ (worldWithFile mainPath "KEEP LOOKING AT ME!\n".toList)
     "KEEP LOOKING AT ME!\n".toList (by decide)).2.2.2.2.1⟩


theorem canCreate_not_dir (w : World) (p : Str) (h : canCreate w p = true) :
    w.node p ≠ some Node.dir := by
  unfold canCreate at h
  simp only [Bool.and_eq_true, bne_iff_ne, ne_eq] at h
  exact h.2

theorem canCreate_transfer (w w1 : World) (p : Str) (h : canCreate w p = true)
    (hd : ∀ d, w.node d = some Node.dir → w1.node d = some Node.dir)
    (hp : w1.node p ≠ some Node.dir) : canCreate w1 p = true := by
  unfold canCreate hasDir at *
  simp only [Bool.and_eq_true, Bool.or_eq_true, beq_iff_eq, bne_iff_ne, ne_eq] at h ⊢
  refine ⟨⟨h.1.1, ?_⟩, hp⟩
  rcases h.1.2 with h0 | h0
  · exact Or.inl h0
  · exact Or.inr (hd _ h0)

theorem updateFile_installs (self : Crud) (w : World) (c : Str) (quota : Option Nat)
    (fuel : Nat) (o n : Str) (texts : List Str)
    (hne : self.m_path ≠ tempPath)
    (hfile : w.node self.m_path = some (Node.file c))
    (hdir : canCreate w self.m_path = true)
    (htmp : canCreate w tempPath = true)
    (hl : updateLines fuel o n (getlines c) = some texts) :
    ∃ w1, self.updateFile quota fuel o n w = some w1 ∧
      w1.node self.m_path = some (Node.file (written quota (emitLines texts))) ∧
      w1.node tempPath = none ∧ w1.out = w.out ∧ w1.err = w.err := by
  have hne2 : tempPath ≠ self.m_path := fun h => hne h.symm
  have h1 : openRead w self.m_path = some c := openRead_of_file w _ c hfile
  have h2 := openWrite_of_canCreate w tempPath htmp
  have h3 : openRead (w.setNode tempPath (some (Node.file []))) self.m_path = some c :=
    openRead_of_file _ _ c (by simp [hne, hfile])
  have h4 : ∀ data, removeFile ((w.setNode tempPath (some (Node.file []))).setNode tempPath
      (some (Node.file data))) self.m_path
      = (true, (((w.setNode tempPath (some (Node.file []))).setNode tempPath
          (some (Node.file data))).setNode self.m_path none)) := by
    intro data
    unfold removeFile
    simp [hne, hfile]
  have h5 : ∀ data, canCreate (((w.setNode tempPath (some (Node.file []))).setNode tempPath
      (some (Node.file data))).setNode self.m_path none) self.m_path = true := by
    intro data
    apply canCreate_transfer w _ _ hdir
    · intro d hd
      have d1 : d ≠ self.m_path := by
        intro h; rw [h, hfile] at hd; cases hd
      have d2 : d ≠ tempPath := by
        intro h; rw [h] at hd; exact canCreate_not_dir w _ htmp hd
      simp [d1, d2, hd]
    · simp
  have h6 : ∀ data, renameFile (((w.setNode tempPath (some (Node.file []))).setNode tempPath
      (some (Node.file data))).setNode self.m_path none) tempPath self.m_path
      = (true, (((((w.setNode tempPath (some (Node.file []))).setNode tempPath
          (some (Node.file data))).setNode self.m_path none).setNode tempPath none).setNode
            self.m_path (some (Node.file data)))) := by
    intro data
    unfold renameFile
    simp only [setNode_node, if_neg hne2, if_pos, if_true, h5 data, if_neg hne2]
  have hupd : self.updateFile quota fuel o n w
      = some (((((w.setNode tempPath (some (Node.file []))).setNode tempPath
          (some (Node.file (written quota (emitLines texts))))).setNode self.m_path none).setNode
            tempPath none).setNode self.m_path
              (some (Node.file (written quota (emitLines texts))))) := by
    unfold Crud.updateFile
    simp only [h1, h2, h3, Option.getD_some, hl, h4, h6]
  refine ⟨_, hupd, ?_, ?_, ?_, ?_⟩
  · simp
  · simp [hne2]
  · simp
  · simp

theorem updateFile_open_failure (self : Crud) (w : World) (quota : Option Nat) (fuel : Nat)
    (o n : Str)
    (hfail : openRead w self.m_path = none ∨ openWrite w tempPath = none) :
    ∃ w1, self.updateFile quota fuel o n w = some w1 ∧
      (∀ q, q ≠ tempPath → w1.node q = w.node q) ∧
      w1.err = w.err ++ "Unable to update file\n".toList ∧ w1.out = w.out := by
  unfold Crud.updateFile
  cases hr : openRead w self.m_path with
  | none =>
    cases hw : openWrite w tempPath with
    | none => exact ⟨_, rfl, fun _ _ => rfl, rfl, rfl⟩
    | some w1 =>
      unfold openWrite at hw
      split at hw
      · injection hw with hw
        subst hw
        exact ⟨_, rfl, fun q hq => by simp [hq], rfl, rfl⟩
      · cases hw
  | some c =>
    rcases hfail with h | h
    · rw [hr] at h; cases h
    · rw [h]
      exact ⟨_, rfl, fun _ _ => rfl, rfl, rfl⟩

/-! ## Lines without an occurrence, single lines, the empty needle -/

theorem findIn_some_infix (o : Str) :
    ∀ (suf : Str) (q p : Nat), findIn o suf q = some p → o <:+: suf := by
  intro suf
  induction suf with
  | nil =>
    intro q p h
    unfold findIn at h
    split at h
    · rename_i ho
      subst ho
      exact List.infix_refl _
    · cases h
  | cons c cs ih =>
    intro q p h
    unfold findIn at h
    split at h
    · rename_i hp
      exact (List.isPrefixOf_iff_prefix.mp hp).isInfix
    · exact (ih (q + 1) p h).trans (List.suffix_cons c cs).isInfix

theorem updateLine_without_occurrence (fuel : Nat) (o n text : Str) (h : ¬ o <:+: text) :
    updateLine fuel o n text = some text := by
  unfold updateLine
  cases hf : find text o 0 with
  | none => cases fuel <;> rfl
  | some p =>
    exfalso
    apply h
    unfold find at hf
    simp only [Nat.zero_le, if_true, List.drop_zero] at hf
    exact findIn_some_infix o text 0 p hf

theorem updateLines_without_occurrence (fuel : Nat) (o n : Str) :
    ∀ lines : List Str, (∀ line ∈ lines, ¬ o <:+: line) →
      updateLines fuel o n lines = some lines := by
  intro lines
  induction lines with
  | nil => intro _; rfl
  | cons l ls ih =>
    intro h
    simp only [updateLines]
    rw [updateLine_without_occurrence fuel o n l (h l (by simp)),
      ih (fun line hl => h line (by simp [hl]))]

theorem findIn_nil (suf : Str) (q : Nat) : findIn [] suf q = some q := by
  cases suf <;> simp [findIn]

theorem replaceLoop_empty_old (n : Str) :
    ∀ (fuel : Nat) (text : Str) (pos : Nat), pos ≤ text.length →
      replaceLoop [] n fuel text (some pos) = none := by
  intro fuel
  induction fuel with
  | zero => intro text pos _; rfl
  | succ fuel ih =>
    intro text pos hpos
    simp only [replaceLoop]
    have hlen : pos + n.length ≤ (replace text pos ([] : Str).length n).length := by
      have := replace_length text n pos 0 (by simpa using hpos)
      simp only [List.length_nil] at this ⊢
      omega
    have hfind : find (replace text pos ([] : Str).length n) [] (pos + n.length)
        = some (pos + n.length) := by
      unfold find
      rw [if_pos hlen, findIn_nil]
    rw [hfind]
    exact ih _ _ hlen

theorem updateLine_empty_old (fuel : Nat) (n text : Str) : updateLine fuel [] n text = none := by
  unfold updateLine
  have : find text [] 0 = some 0 := by
    unfold find
    rw [if_pos (Nat.zero_le _), findIn_nil]
  rw [this]
  exact replaceLoop_empty_old n fuel text 0 (Nat.zero_le _)

theorem updateFile_empty_old_diverges (self : Crud) (w : World) (c n : Str)
    (quota : Option Nat) (fuel : Nat)
    (hne : self.m_path ≠ tempPath)
    (hfile : w.node self.m_path = some (Node.file c))
    (htmp : canCreate w tempPath = true) (hc : c ≠ []) :
    self.updateFile quota fuel [] n w = none := by
  have h1 : openRead w self.m_path = some c := openRead_of_file w _ c hfile
  have h2 := openWrite_of_canCreate w tempPath htmp
  have h3 : openRead (w.setNode tempPath (some (Node.file []))) self.m_path = some c :=
    openRead_of_file _ _ c (by simp [hne, hfile])
  obtain ⟨l, ls, hl⟩ : ∃ l ls, getlines c = l :: ls := by
    cases hg : getlines c with
    | nil => exact absurd ((getlines_eq_nil c).mp hg) hc
    | cons l ls => exact ⟨l, ls, rfl⟩
  unfold Crud.updateFile
  simp only [h1, h2, h3, Option.getD_some, hl, updateLines, updateLine_empty_old]


theorem distinctFiles_ne (p q : Str) (h : distinctFiles p q = true) : p ≠ q := by
  unfold distinctFiles at h
  simp only [Bool.and_eq_true, bne_iff_ne, ne_eq] at h
  exact h.2

theorem openRead_of_absent (w : World) (p : Str) (h : w.node p = none) :
    openRead w p = none := by
  simp [openRead, h]

/-! ## Claims about `updateFile` -/

/-- C5, the code at a failing input: for a store at the path of the temporary
file, holding "x\n", `std::remove` returns 0 and `std::rename` then fails, yet
`updateFile("a","b")` returns with nothing sent to `std::cerr` or `std::cout`,
and no file is left at the path of the store. -/
theorem update_swallows_rename_failure :
    (removeFile ((worldWithFile tempPath "x\n".toList).setNode tempPath (some (Node.file [])))
        tempPath).1 = true ∧
    (renameFile (removeFile ((worldWithFile tempPath "x\n".toList).setNode tempPath
        (some (Node.file []))) tempPath).2 tempPath tempPath).1 = false ∧
    (Crud.updateFile ⟨tempPath⟩ none 0 "a".toList "b".toList
        (worldWithFile tempPath "x\n".toList)).map (fun w => (w.node tempPath, w.err, w.out))
      = some (none, [], []) := by
  decide

theorem updateLines_single (fuel : Nat) (o n s : Str) (ho : o ≠ []) (hf : s.length ≤ fuel) :
    updateLines fuel o n [s] = some [replaceAll o n s] := by
  simp only [updateLines, updateLine_eq_replaceAll o n s ho fuel hf]

theorem replaceAll_stop_keep :
    replaceAll "STOP".toList "KEEP".toList "STOP LOOKING AT ME!".toList
      = "KEEP LOOKING AT ME!".toList := by
  have h := updateLine_eq_replaceAll "STOP".toList "KEEP".toList "STOP LOOKING AT ME!".toList
    (by decide) 19 (by decide)
  have e : updateLine 19 "STOP".toList "KEEP".toList "STOP LOOKING AT ME!".toList
      = some "KEEP LOOKING AT ME!".toList := by decide
  rw [e] at h
  exact (Option.some.inj h).symm

theorem updateFile_of_beforeInstall (self : Crud) (quota : Option Nat) (fuel : Nat)
    (o n : Str) (w w2 : World)
    (h : self.updateFileBeforeInstall quota fuel o n w = some w2) :
    self.updateFile quota fuel o n w
      = some (renameFile (removeFile w2 self.m_path).2 tempPath self.m_path).2 := by
  unfold Crud.updateFileBeforeInstall at h
  unfold Crud.updateFile
  cases hr : openRead w self.m_path with
  | none => rw [hr] at h; cases hw : openWrite w tempPath <;> rw [hw] at h <;> cases h
  | some c =>
    cases hw : openWrite w tempPath with
    | none => rw [hr, hw] at h; cases h
    | some w1 =>
      rw [hr, hw] at h
      simp only at h ⊢
      cases hl : updateLines fuel o n (getlines ((openRead w1 self.m_path).getD [])) with
      | none => rw [hl] at h; cases h
      | some texts =>
        rw [hl] at h
        simp only [Option.some.injEq] at h
        subst h
        rfl

theorem beforeInstall_keeps_others (self : Crud) (quota : Option Nat) (fuel : Nat)
    (o n : Str) (w w2 : World)
    (h : self.updateFileBeforeInstall quota fuel o n w = some w2) :
    ∀ q, q ≠ tempPath → w2.node q = w.node q := by
  unfold Crud.updateFileBeforeInstall at h
  cases hr : openRead w self.m_path with
  | none => rw [hr] at h; cases hw : openWrite w tempPath <;> rw [hw] at h <;> cases h
  | some c =>
    cases hw : openWrite w tempPath with
    | none => rw [hr, hw] at h; cases h
    | some w1 =>
      rw [hr, hw] at h
      simp only at h
      cases hl : updateLines fuel o n (getlines ((openRead w1 self.m_path).getD [])) with
      | none => rw [hl] at h; cases h
      | some texts =>
        rw [hl] at h
        simp only [Option.some.injEq] at h
        subst h
        unfold openWrite at hw
        split at hw
        · injection hw with hw
          subst hw
          intro q hq
          simp [hq]
        · cases hw

theorem openWrite_keeps_others (w w1 : World) (p : Str) (h : openWrite w p = some w1) :
    w1.node p = some (Node.file []) ∧ ∀ q, q ≠ p → w1.node q = w.node q := by
  unfold openWrite at h
  split at h
  · injection h with h
    subst h
    exact ⟨by simp, fun q hq => by simp [hq]⟩
  · cases h

theorem updateLines_eq_map (fuel : Nat) (o n : Str) (ho : o ≠ []) :
    ∀ lines : List Str, (∀ line ∈ lines, line.length ≤ fuel) →
      updateLines fuel o n lines = some (lines.map (replaceAll o n)) := by
  intro lines
  induction lines with
  | nil => intro _; rfl
  | cons l ls ih =>
    intro h
    simp only [updateLines, List.map_cons]
    rw [updateLine_eq_replaceAll o n l ho fuel (h l (by simp)),
      ih (fun line hl => h line (by simp [hl]))]

theorem beforeInstall_of_file (self : Crud) (w : World) (c : Str) (quota : Option Nat)
    (fuel : Nat) (o n : Str) (texts : List Str)
    (hne : self.m_path ≠ tempPath)
    (hfile : w.node self.m_path = some (Node.file c))
    (htmp : canCreate w tempPath = true)
    (hl : updateLines fuel o n (getlines c) = some texts) :
    self.updateFileBeforeInstall quota fuel o n w
      = some ((w.setNode tempPath (some (Node.file []))).setNode tempPath
          (some (Node.file (written quota (emitLines texts))))) := by
  have h1 : openRead w self.m_path = some c := openRead_of_file w _ c hfile
  have h2 := openWrite_of_canCreate w tempPath htmp
  have h3 : openRead (w.setNode tempPath (some (Node.file []))) self.m_path = some c :=
    openRead_of_file _ _ c (by simp [hne, hfile])
  unfold Crud.updateFileBeforeInstall
  simp only [h1, h2, h3, Option.getD_some, hl]

end FileManip
